import Mathlib

/-!
Verification of the annotation timeline engine of the linguai repository.

The development shallowly embeds the engine's core functions:
  * the annotation data model (`src/frontend/src/types/api.ts`),
  * the annotation operations and keyboard-navigation helpers of
    `src/frontend/src/pages/HomePage.tsx`,
  * the generic undo/redo history hook `src/frontend/src/hooks/useUndoRedo.ts`,
  * the TextGrid serializer of `HomePage.tsx` (`handleExport`, format
    `textgrid`) and the TextGrid / ELAN parsers of
    `src/frontend/src/utils/importParsers.ts`.

Modelling conventions:
  * JavaScript numbers holding times, zoom levels and pixel offsets are
    modelled as exact rationals (`ℚ`); the floating-point representation
    itself is out of scope.
  * `crypto.randomUUID()` is modelled by an explicitly threaded fresh
    natural-number id.  No theorem below depends on id values.
  * Text files are modelled at the granularity of lines, as the source
    parser is strictly line-oriented: an inductive type `TGLine` has one
    constructor per syntactic line shape that `parseTextGridLong`
    distinguishes by `startsWith`, carrying the numeric or quoted-string
    payload that the source extracts with `parseFloat` / a quoted-string
    regular expression.  The tokenization is faithful for payloads that
    contain no double quote and no newline (which is the case for every
    payload appearing in this development).
  * `JSON.stringify`-based deep equality of annotation lists coincides
    with structural equality of the embedded values, so it is modelled by
    decidable equality.
-/

/-- The `type` field of an annotation: `'interval' | 'point'`. -/
inductive AnnType : Type
  | interval : AnnType
  | point : AnnType
deriving DecidableEq, Repr

/-- An annotation (interface `Annotation` in `types/api.ts`).  The source
field `end` is a Lean keyword and is embedded as `endT`. -/
structure Annot : Type where
  id : ℕ
  tier : String
  start : ℚ
  endT : ℚ
  text : String
  type : AnnType
deriving DecidableEq, Repr

/-- A tier declaration (interface `TierConfig` in `types/api.ts`). -/
structure TierConfig : Type where
  name : String
  type : AnnType
deriving DecidableEq, Repr

/-- The identity of an annotation up to its generated id: the
`(tier, start, end, text, type)` tuple that the spec's round-trip property
compares by. -/
def annKey (a : Annot) : String × ℚ × ℚ × String × AnnType :=
  (a.tier, a.start, a.endT, a.text, a.type)

/-- The slice of `HomePage` component state that the annotation engine
operates on: `annotations`, `tierNames`, `tierConfigs`, `duration`. -/
structure HomeState : Type where
  annotations : List Annot
  tierNames : List String
  tierConfigs : List TierConfig
  duration : ℚ
deriving DecidableEq, Repr

/-- Result of parsing an annotation file (interface `ImportResult` in
`importParsers.ts`). -/
structure ImportResult : Type where
  annotations : List Annot
  tierConfigs : List TierConfig
  duration : ℚ
deriving DecidableEq, Repr

/-- `handleAnnotationCreate` (HomePage.tsx lines 72-82): builds a new
annotation with empty text and appends it.  The function performs no
validation of any kind. -/
def handleAnnotationCreate (anns : List Annot) (freshId : ℕ) (tier : String)
    (start endT : ℚ) (type : AnnType) : List Annot :=
  anns ++ [{ id := freshId, tier := tier, start := start, endT := endT,
             text := "", type := type }]

/-- A partial update object (`Partial<Annotation>` in the source): every
field optional, `none` meaning "absent from the update object". -/
structure AnnotPatch : Type where
  id : Option ℕ := none
  tier : Option String := none
  start : Option ℚ := none
  endT : Option ℚ := none
  text : Option String := none
  type : Option AnnType := none
deriving DecidableEq, Repr

/-- The object spread `{ ...a, ...updates }`: fields present in the update
object win. -/
def applyPatch (a : Annot) (p : AnnotPatch) : Annot :=
  { id := p.id.getD a.id
    tier := p.tier.getD a.tier
    start := p.start.getD a.start
    endT := p.endT.getD a.endT
    text := p.text.getD a.text
    type := p.type.getD a.type }

/-- `handleAnnotationUpdate` (HomePage.tsx lines 84-86): map over the list,
spreading the updates over every annotation whose id matches. -/
def handleAnnotationUpdate (anns : List Annot) (i : ℕ) (p : AnnotPatch) :
    List Annot :=
  anns.map fun a => if a.id = i then applyPatch a p else a

/-- `handleAnnotationDelete` (HomePage.tsx lines 88-90). -/
def handleAnnotationDelete (anns : List Annot) (i : ℕ) : List Annot :=
  anns.filter fun a => decide (a.id ≠ i)

/-- `handleAnnotationImport` (HomePage.tsx lines 114-136): append imported
annotations, append only tier configs and tier names not already present,
and raise `duration` only when the imported one is strictly larger. -/
def handleAnnotationImport (st : HomeState) (result : ImportResult) :
    HomeState :=
  { annotations := st.annotations ++ result.annotations
    tierConfigs := st.tierConfigs ++
      result.tierConfigs.filter fun c =>
        decide (c.name ∉ st.tierConfigs.map TierConfig.name)
    tierNames := st.tierNames ++
      (result.tierConfigs.map TierConfig.name).filter fun n =>
        decide (n ∉ st.tierNames)
    duration := if result.duration > st.duration then result.duration
                else st.duration }

/-- Insertion into a JavaScript `Set`, iterated in insertion order: keep the
first occurrence of each element. -/
def jsSetDedupAux {α : Type} [DecidableEq α] (seen : List α) :
    List α → List α
  | [] => []
  | x :: xs =>
      if x ∈ seen then jsSetDedupAux seen xs
      else x :: jsSetDedupAux (x :: seen) xs

/-- `[...new Set(l)]`: de-duplication keeping first occurrences. -/
def jsSetDedup {α : Type} [DecidableEq α] (l : List α) : List α :=
  jsSetDedupAux [] l

/-- Comparator of the `sort((a, b) => a - b)` call in `findBoundaries`,
and of `sort((a, b) => a.start - b.start)` in `handleExport` when applied
to start values. -/
def ratLe (a b : ℚ) : Bool := decide (a ≤ b)

/-- `findBoundaries` (HomePage.tsx lines 159-166): the set of all
`start`/`end` values of all annotations, in ascending order. -/
def findBoundaries (anns : List Annot) : List ℚ :=
  (jsSetDedup (anns.flatMap fun a => [a.start, a.endT])).mergeSort ratLe

/-- `onPreviousBoundary` (HomePage.tsx lines 201-205): the last boundary
strictly below `currentTime - 0.01`, if any. -/
def onPreviousBoundary (anns : List Annot) (currentTime : ℚ) : Option ℚ :=
  ((findBoundaries anns).filter fun b =>
    decide (b < currentTime - 1/100)).getLast?

/-- `onNextBoundary` (HomePage.tsx lines 206-210): the first boundary
strictly above `currentTime + 0.01`, if any. -/
def onNextBoundary (anns : List Annot) (currentTime : ℚ) : Option ℚ :=
  (findBoundaries anns).find? fun b => decide (b > currentTime + 1/100)

/-- The pair of view states written by the zoom-to-selection handler. -/
structure ZoomScroll : Type where
  zoomLevel : ℚ
  scrollX : ℚ
deriving DecidableEq, Repr

/-- `onZoomToSelection` (HomePage.tsx lines 183-196).  When the guard fails
the handler writes nothing, so the previous `zoomLevel`/`scrollX` persist. -/
def onZoomToSelection (selectionStart selectionEnd : Option ℚ)
    (duration containerWidth zoomLevel scrollX : ℚ) : ZoomScroll :=
  match selectionStart, selectionEnd with
  | some s, some e =>
      if s ≠ e ∧ duration > 0 then
        let selectionDuration := |e - s|
        let targetZoom := duration / selectionDuration * (9/10)
        let newZoom := max 1 (min targetZoom 100)
        let pixelsPerSecond := containerWidth * newZoom / duration
        let selectionStartPx := min s e * pixelsPerSecond
        let padding := containerWidth * (5/100)
        { zoomLevel := newZoom, scrollX := max 0 (selectionStartPx - padding) }
      else { zoomLevel := zoomLevel, scrollX := scrollX }
  | _, _ => { zoomLevel := zoomLevel, scrollX := scrollX }

/-- The state of the `useUndoRedo` hook (`UndoRedoState<T>` in
`useUndoRedo.ts`): past snapshots, the present value, future snapshots. -/
structure HistState (T : Type) : Type where
  past : List T
  present : T
  future : List T
deriving DecidableEq, Repr

/-- The initial hook state: empty stacks around `initialState`. -/
def histInit {T : Type} (initialState : T) : HistState T :=
  { past := [], present := initialState, future := [] }

/-- JavaScript `arr.slice(-n)`: the last `n` elements, except that
`slice(-0)` is the whole array. -/
def jsSliceLast {α : Type} (n : ℕ) (l : List α) : List α :=
  if n = 0 then l else l.drop (l.length - n)

/-- `set` of `useUndoRedo.ts` (lines 28-65), with the functional-update
form already resolved to a value.  The reference-equality fast path and the
`JSON.stringify` deep comparison both coincide with structural equality of
the embedded values; when the new value is unchanged the call returns the
state untouched, otherwise the present is pushed onto `past` (bounded to
the last `maxHistory` entries) and `future` is cleared. -/
def histSet {T : Type} [DecidableEq T] (maxHistory : ℕ) (s : HistState T)
    (v : T) : HistState T :=
  if v = s.present then s
  else { past := jsSliceLast maxHistory (s.past ++ [s.present]),
         present := v, future := [] }

/-- `undo` of `useUndoRedo.ts` (lines 67-80): `past[past.length - 1]` is
`getLast?`, and `past.slice(0, -1)` is `dropLast`. -/
def histUndo {T : Type} (s : HistState T) : HistState T :=
  match s.past.getLast? with
  | none => s
  | some previous =>
      { past := s.past.dropLast, present := previous,
        future := s.present :: s.future }

/-- `redo` of `useUndoRedo.ts` (lines 82-95). -/
def histRedo {T : Type} (s : HistState T) : HistState T :=
  match s.future with
  | [] => s
  | next :: rest =>
      { past := s.past ++ [s.present], present := next, future := rest }

/-- `reset` of `useUndoRedo.ts` (lines 97-103). -/
def histReset {T : Type} (_s : HistState T) (v : T) : HistState T :=
  { past := [], present := v, future := [] }

/-- One call into the hook: `set`, `undo`, `redo` or `reset`. -/
inductive HistOp (T : Type) : Type
  | set (v : T) : HistOp T
  | undo : HistOp T
  | redo : HistOp T
  | reset (v : T) : HistOp T

/-- Interpret one hook call. -/
def applyHistOp {T : Type} [DecidableEq T] (maxHistory : ℕ)
    (s : HistState T) : HistOp T → HistState T
  | HistOp.set v => histSet maxHistory s v
  | HistOp.undo => histUndo s
  | HistOp.redo => histRedo s
  | HistOp.reset v => histReset s v

/-- Interpret a sequence of hook calls. -/
def runHistOps {T : Type} [DecidableEq T] (maxHistory : ℕ)
    (s : HistState T) (ops : List (HistOp T)) : HistState T :=
  ops.foldl (applyHistOp maxHistory) s

/-- Two interval annotations whose boundary values are `{1, 2, 2, 3.5}`,
the concrete scenario named by the spec's boundary-navigation property. -/
def boundaryDemo : List Annot :=
  [{ id := 0, tier := "a", start := 1, endT := 2, text := "",
     type := AnnType.interval },
   { id := 1, tier := "b", start := 2, endT := 7/2, text := "",
     type := AnnType.interval }]

/-- A `TIME_SLOT` element of an EAF document, after XML reading: the
`TIME_SLOT_ID` attribute (absent or empty string are both falsy in the
source's `if (id && value)` guard and modelled as `none` / `""`), and the
`TIME_VALUE` attribute modelled as its parsed integer millisecond value
(`none` covering an absent or falsy attribute). -/
structure EAFSlot : Type where
  slotId : Option String
  timeValue : Option ℕ
deriving DecidableEq, Repr

/-- An `ALIGNABLE_ANNOTATION` element: its two `TIME_SLOT_REF` attributes
and the text content of its `ANNOTATION_VALUE` child (`""` when absent). -/
structure EAFAlignable : Type where
  ref1 : Option String
  ref2 : Option String
  value : String
deriving DecidableEq, Repr

/-- A `REF_ANNOTATION` element: only its `ANNOTATION_VALUE` text is read. -/
structure EAFRef : Type where
  value : String
deriving DecidableEq, Repr

/-- A `TIER` element with its `TIER_ID` attribute and contained
annotations, in document order. -/
structure EAFTier : Type where
  tierId : Option String
  alignable : List EAFAlignable
  refs : List EAFRef
deriving DecidableEq, Repr

/-- An EAF document as the DOM queries of `parseELANXML` see it: all
`TIME_SLOT` elements and all `TIER` elements in document order. -/
structure EAFDoc : Type where
  slots : List EAFSlot
  tiers : List EAFTier
deriving DecidableEq, Repr

/-- `Map.set`: replace the value at an existing key in place, otherwise
append the binding. -/
def mapSet (m : List (String × ℚ)) (k : String) (v : ℚ) :
    List (String × ℚ) :=
  if m.any fun p => decide (p.1 = k) then
    m.map fun p => if p.1 = k then (k, v) else p
  else m ++ [(k, v)]

/-- `Map.get` as an option. -/
def mapGet (m : List (String × ℚ)) (k : String) : Option ℚ :=
  (m.find? fun p => decide (p.1 = k)).map Prod.snd

/-- The time-slot resolution map of `parseELANXML` (lines 235-243):
milliseconds divided by 1000. -/
def buildTimeSlots (slots : List EAFSlot) : List (String × ℚ) :=
  slots.foldl
    (fun m s =>
      match s.slotId, s.timeValue with
      | some i, some v => if i = "" then m else mapSet m i ((v : ℚ) / 1000)
      | _, _ => m)
    []

/-- Duration = the largest time-slot value (lines 245-249). -/
def eafDuration (m : List (String × ℚ)) : ℚ :=
  m.foldl (fun d p => if p.2 > d then p.2 else d) 0

/-- `tier.getAttribute('TIER_ID') || 'Unknown'`. -/
def eafTierName (t : EAFTier) : String :=
  match t.tierId with
  | some s => if s = "" then "Unknown" else s
  | none => "Unknown"

/-- `tierConfigs.find(c => c.name === n)` followed by mutating its type to
`point`: replace the first config with the given name by its point-typed
version. -/
def setFirstPoint : List TierConfig → String → List TierConfig
  | [], _ => []
  | c :: rest, n =>
      if c.name = n then { name := c.name, type := AnnType.point } :: rest
      else c :: setFirstPoint rest n

/-- Accumulator of the tier-processing loop of `parseELANXML`. -/
structure EAFAcc : Type where
  annotations : List Annot
  tierConfigs : List TierConfig
  nextId : ℕ
deriving DecidableEq, Repr

/-- Processing of one `ALIGNABLE_ANNOTATION` (lines 262-288): with both
time-slot references present (and truthy), resolve them with default `0`,
emit the annotation (point-typed when the resolved times coincide), and on
a point retroactively upgrade the first tier config with this tier's name. -/
def processAlignable (ts : List (String × ℚ)) (tierName : String)
    (acc : EAFAcc) (ann : EAFAlignable) : EAFAcc :=
  match ann.ref1, ann.ref2 with
  | some r1, some r2 =>
      if r1 = "" ∨ r2 = "" then acc
      else
        let start := (mapGet ts r1).getD 0
        let e := (mapGet ts r2).getD 0
        let isPoint := start = e
        let acc1 : EAFAcc :=
          { annotations := acc.annotations ++
              [{ id := acc.nextId, tier := tierName, start := start,
                 endT := e, text := ann.value,
                 type := if isPoint then AnnType.point else AnnType.interval }]
            tierConfigs := acc.tierConfigs
            nextId := acc.nextId + 1 }
        if isPoint then
          { acc1 with tierConfigs := setFirstPoint acc1.tierConfigs tierName }
        else acc1
  | _, _ => acc

/-- Processing of one `REF_ANNOTATION` (lines 293-308): flattened to a
zero-width interval at time 0, emitted only when its text is truthy. -/
def processRef (tierName : String) (acc : EAFAcc) (r : EAFRef) : EAFAcc :=
  if r.value = "" then acc
  else
    { acc with
      annotations := acc.annotations ++
        [{ id := acc.nextId, tier := tierName, start := 0, endT := 0,
           text := r.value, type := AnnType.interval }]
      nextId := acc.nextId + 1 }

/-- Processing of one `TIER` element (lines 252-309): push an
interval-typed config, then the alignable annotations, then the flattened
ref annotations. -/
def processTier (ts : List (String × ℚ)) (acc : EAFAcc) (t : EAFTier) :
    EAFAcc :=
  let n := eafTierName t
  let acc1 : EAFAcc :=
    { acc with tierConfigs := acc.tierConfigs ++
        [{ name := n, type := AnnType.interval }] }
  let acc2 := t.alignable.foldl (processAlignable ts n) acc1
  t.refs.foldl (processRef n) acc2

/-- `parseELANXML` (importParsers.ts lines 228-312) over the DOM view. -/
def parseELANXML (doc : EAFDoc) : ImportResult :=
  let ts := buildTimeSlots doc.slots
  let acc := doc.tiers.foldl (processTier ts) ⟨[], [], 0⟩
  { annotations := acc.annotations, tierConfigs := acc.tierConfigs,
    duration := eafDuration ts }

/-- The C8 invariant: a given annotation key is present, the point-typed
config for tier `n` is present, and every config named `n` is point-typed. -/
def eafInv (n : String) (k : String × ℚ × ℚ × String × AnnType)
    (acc : EAFAcc) : Prop :=
  k ∈ acc.annotations.map annKey ∧
  ({ name := n, type := AnnType.point } : TierConfig) ∈ acc.tierConfigs ∧
  ∀ c ∈ acc.tierConfigs, c.name = n → c.type = AnnType.point

/-- A one-tier EAF document with a single alignable annotation whose two
time-slot references both resolve to 1 second. -/
def eafDemo : EAFDoc :=
  EAFDoc.mk [EAFSlot.mk (some "s1") (some 1000)]
    [EAFTier.mk (some "T")
      [EAFAlignable.mk (some "s1") (some "s1") "hi"] []]

/-- ASCII lower-casing of one character, as `toLowerCase` acts on the
ASCII class names appearing in TextGrid files. -/
def jsCharLower (c : Char) : Char :=
  if c.toNat ≥ 65 ∧ c.toNat ≤ 90 then Char.ofNat (c.toNat + 32) else c

/-- `String.prototype.toLowerCase` on ASCII strings. -/
def jsToLower (s : String) : String := String.mk (s.data.map jsCharLower)

/-- Substring containment on character lists. -/
def jsIncludesList : List Char → List Char → Bool
  | [], pat => pat.isEmpty
  | c :: t, pat => pat.isPrefixOf (c :: t) || jsIncludesList t pat

/-- `String.prototype.includes`. -/
def jsIncludes (s pat : String) : Bool := jsIncludesList s.data pat.data

/-- Tier class to annotation type (importParsers.ts lines 61-62): any class
whose lower-casing contains `point` or equals `texttier` is a point tier,
everything else an interval tier. -/
def classToType (c : String) : AnnType :=
  if jsIncludes (jsToLower c) "point" || jsToLower c = "texttier" then
    AnnType.point
  else AnnType.interval

/-- One line of a long-form TextGrid file, tokenized into the syntactic
shapes that `parseTextGridLong` distinguishes with `startsWith` tests,
carrying the numeric payload extracted by `parseFloat` after the `=` sign
or the string payload extracted by the first-quoted-run regular
expression.  The first five constructors are the header lines emitted by
`handleExport` that match none of the parser's key tests. -/
inductive TGLine : Type
  | fileTypeLine : TGLine
  | objectClassLine : TGLine
  | blankLine : TGLine
  | tiersExistLine : TGLine
  | sizeLine (n : ℕ) : TGLine
  | itemLine : TGLine
  | classLine (c : String) : TGLine
  | nameLine (s : String) : TGLine
  | xminLine (q : ℚ) : TGLine
  | xmaxLine (q : ℚ) : TGLine
  | timeLine (q : ℚ) : TGLine
  | intervalsSizeLine (n : ℕ) : TGLine
  | intervalLine : TGLine
  | textLine (s : String) : TGLine
deriving DecidableEq, Repr

/-- The record accumulator `currentInterval` of `parseTextGridLong`. -/
structure TGRec : Type where
  xmin : Option ℚ
  xmax : Option ℚ
  text : Option String
deriving DecidableEq, Repr

/-- The full mutable state of `parseTextGridLong`, plus the fresh-id
counter modelling `crypto.randomUUID`. -/
structure TGParseState : Type where
  annotations : List Annot
  tierConfigs : List TierConfig
  duration : ℚ
  currentTier : Option TierConfig
  cur : TGRec
  inItem : Bool
  inInterval : Bool
  nextId : ℕ
deriving DecidableEq, Repr

/-- The state at the top of `parseTextGridLong`. -/
def initTGParseState : TGParseState :=
  TGParseState.mk [] [] 0 none (TGRec.mk none none none) false false 0

/-- One iteration of the line loop of `parseTextGridLong` (importParsers.ts
lines 41-116), with each `startsWith` branch keyed by the corresponding
`TGLine` constructor: file-level `xmax =` sets the duration when outside an
item; `item [` opens an item and clears the current tier; inside an item,
`class =` starts a tier, `name =` completes and registers it,
`intervals [`/`points [` opens a record, and while a record is open the
`xmin =`/`time =`/`number =`, `xmax =` and `text =`/`mark =` keys fill the
accumulator, the record being emitted on the line that completes its
required fields. -/
def stepTGLine (st : TGParseState) (l : TGLine) : TGParseState :=
  let st1 :=
    match l with
    | TGLine.xmaxLine q => if st.inItem then st else { st with duration := q }
    | _ => st
  match l with
  | TGLine.itemLine => { st1 with inItem := true, currentTier := none }
  | _ =>
    if st1.inItem then
      let st2 :=
        match l with
        | TGLine.classLine c =>
            { st1 with currentTier := some (TierConfig.mk "" (classToType c)) }
        | _ => st1
      let st3 :=
        match l, st2.currentTier with
        | TGLine.nameLine nm, some ct =>
            { st2 with
              currentTier := some (TierConfig.mk nm ct.type)
              tierConfigs := st2.tierConfigs ++ [TierConfig.mk nm ct.type] }
        | _, _ => st2
      match l with
      | TGLine.intervalLine =>
          { st3 with inInterval := true, cur := TGRec.mk none none none }
      | _ =>
        match st3.currentTier with
        | some ct =>
          if st3.inInterval then
            let cur1 :=
              match l with
              | TGLine.xminLine q => { st3.cur with xmin := some q }
              | TGLine.timeLine q => { st3.cur with xmin := some q }
              | _ => st3.cur
            let cur2 :=
              match l with
              | TGLine.xmaxLine q => { cur1 with xmax := some q }
              | _ => cur1
            let cur3 :=
              match l with
              | TGLine.textLine s => { cur2 with text := some s }
              | _ => cur2
            let isPoint := decide (ct.type = AnnType.point)
            if (if isPoint then cur3.xmin.isSome && cur3.text.isSome
                else cur3.xmin.isSome && cur3.xmax.isSome &&
                  cur3.text.isSome) then
              { st3 with
                annotations := st3.annotations ++
                  [Annot.mk st3.nextId ct.name (cur3.xmin.getD 0)
                    (if isPoint then cur3.xmin.getD 0 else cur3.xmax.getD 0)
                    (cur3.text.getD "") ct.type]
                nextId := st3.nextId + 1
                inInterval := false
                cur := TGRec.mk none none none }
            else { st3 with cur := cur3 }
          else st3
        | none => st3
    else st1

/-- `parseTextGridLong` (importParsers.ts lines 32-119). -/
def parseTextGridLong (lines : List TGLine) : ImportResult :=
  let fin := lines.foldl stepTGLine initTGParseState
  ImportResult.mk fin.annotations fin.tierConfigs fin.duration

/-- Whether a line is an `xmin =` key line. -/
def isXminLine : TGLine → Bool
  | TGLine.xminLine _ => true
  | _ => false

/-- The format dispatch test of `parseTextGrid` (importParsers.ts line 20):
the file is short-form exactly when no line contains `xmin =`. -/
def hasXminKey (lines : List TGLine) : Bool := lines.any isXminLine

/-- The `sort((a, b) => a.start - b.start)` comparator of `handleExport`. -/
def annStartLe (a b : Annot) : Bool := decide (a.start ≤ b.start)

/-- Stable insertion by start value: the inserted annotation goes after
existing annotations with the same start, matching the stability that the
`Array.prototype.sort` specification guarantees. -/
def insertByStart (a : Annot) : List Annot → List Annot
  | [] => [a]
  | b :: rest =>
      if annStartLe b a then b :: insertByStart a rest else a :: b :: rest

/-- Stable sort by start value (a model of the stable
`sort((a, b) => a.start - b.start)`). -/
def sortByStart (l : List Annot) : List Annot :=
  l.foldl (fun acc a => insertByStart a acc) []

/-- The annotations of one tier, sorted by start, as `handleExport`
collects them. -/
def tierRecs (anns : List Annot) (tierName : String) : List Annot :=
  sortByStart (anns.filter fun a => decide (a.tier = tierName))

/-- The four lines emitted per annotation by `handleExport` (lines
289-294): `intervals [k]:`, `xmin`, `xmax`, `text`. -/
def recLines (a : Annot) : List TGLine :=
  [TGLine.intervalLine, TGLine.xminLine a.start, TGLine.xmaxLine a.endT,
   TGLine.textLine a.text]

/-- The block emitted per tier by `handleExport` (lines 277-295): every
tier is written with class `IntervalTier` and every annotation as an
interval record. -/
def tierBlock (duration : ℚ) (anns : List Annot) (tierName : String) :
    List TGLine :=
  [TGLine.itemLine, TGLine.classLine "IntervalTier", TGLine.nameLine tierName,
   TGLine.xminLine 0, TGLine.xmaxLine duration,
   TGLine.intervalsSizeLine (tierRecs anns tierName).length]
  ++ (tierRecs anns tierName).flatMap recLines

/-- `[...new Set([...tierNames, ...annotations.map(a => a.tier)])]`
(HomePage.tsx line 247). -/
def allTiers (st : HomeState) : List String :=
  jsSetDedup (st.tierNames ++ st.annotations.map Annot.tier)

/-- The `textgrid` branch of `handleExport` (HomePage.tsx lines 265-299):
header lines, then one block per tier. -/
def serializeTextGridLong (st : HomeState) : List TGLine :=
  [TGLine.fileTypeLine, TGLine.objectClassLine, TGLine.blankLine,
   TGLine.xminLine 0, TGLine.xmaxLine st.duration, TGLine.tiersExistLine,
   TGLine.sizeLine (allTiers st).length, TGLine.itemLine]
  ++ (allTiers st).flatMap (tierBlock st.duration st.annotations)

/-- The annotations that the long-form parser re-creates from the records
of one tier, with consecutive fresh ids starting at `n`. -/
def emitted (n : ℕ) (tierName : String) : List Annot → List Annot
  | [] => []
  | a :: rest =>
      Annot.mk n tierName a.start a.endT a.text AnnType.interval ::
        emitted (n + 1) tierName rest

/-- The annotations re-created for a whole tier list. -/
def emittedAll (n : ℕ) (anns : List Annot) : List String → List Annot
  | [] => []
  | tn :: rest =>
      emitted n tn (tierRecs anns tn) ++
        emittedAll (n + (tierRecs anns tn).length) anns rest

/-- An interval-only state with two annotations on one tier (deliberately
unsorted) and one declared empty tier. -/
def intervalDemo : HomeState :=
  HomeState.mk [Annot.mk 0 "words" 2 3 "" AnnType.interval,
    Annot.mk 1 "words" 0 1 "" AnnType.interval] ["misc"] [] 5

/-- A state mixing an interval tier and a point tier. -/
def mixedDemo : HomeState :=
  HomeState.mk [Annot.mk 0 "words" 0 1 "" AnnType.interval,
    Annot.mk 1 "tones" 1 1 "" AnnType.point] [] [] 2

/-- Claim C2 (counterexample): `createAnnotation(tier, 1, 2, 'point')` does
not fail and does modify the annotation set — the point annotation with
`start ≠ end` is appended as-is, so the claimed `ValidationError` does not
exist in the code. -/
theorem C2_counterexample :
    handleAnnotationCreate [] 0 "T" 1 2 AnnType.point =
      [{ id := 0, tier := "T", start := 1, endT := 2, text := "",
         type := AnnType.point }] ∧
    handleAnnotationCreate [] 0 "T" 1 2 AnnType.point ≠ [] := by
  constructor
  · rfl
  · decide

/-- Claim C2 (amended): `createAnnotation(tier, t, t, 'point')` succeeds and
appends one point annotation, and `createAnnotation(tier, t1, t2, 'point')`
with `t1 ≠ t2` also succeeds, appending the annotation unvalidated instead
of failing with a `ValidationError`. -/
theorem C2_point_no_validation (anns : List Annot) (i : ℕ) (tier : String)
    (t1 t2 : ℚ) (_h : t1 ≠ t2) :
    handleAnnotationCreate anns i tier t1 t1 AnnType.point =
      anns ++ [{ id := i, tier := tier, start := t1, endT := t1, text := "",
                 type := AnnType.point }] ∧
    handleAnnotationCreate anns i tier t1 t2 AnnType.point =
      anns ++ [{ id := i, tier := tier, start := t1, endT := t2, text := "",
                 type := AnnType.point }] ∧
    (handleAnnotationCreate anns i tier t1 t2 AnnType.point).length =
      anns.length + 1 := by
  refine ⟨rfl, rfl, ?_⟩
  simp [handleAnnotationCreate]

/-- Closed instance of `C2_point_no_validation` at a concrete input. -/
theorem C2_point_no_validation_witness :
    handleAnnotationCreate [] 3 "words" 1 2 AnnType.point =
      [{ id := 3, tier := "words", start := 1, endT := 2, text := "",
         type := AnnType.point }] :=
  (C2_point_no_validation [] 3 "words" 1 2 (by decide)).2.1

/-- Claim C6 (counterexample): updating an absent id returns the list
unchanged instead of failing with `NotFoundError`, and updating a point
annotation's `end` to differ from its `start` is accepted — no
re-validation of the point invariant happens after the merge. -/
theorem C6_counterexample :
    handleAnnotationUpdate [] 5 { endT := some 2 } = [] ∧
    handleAnnotationUpdate
        [{ id := 5, tier := "T", start := 1, endT := 1, text := "",
           type := AnnType.point }] 5 { endT := some 2 } =
      [{ id := 5, tier := "T", start := 1, endT := 2, text := "",
         type := AnnType.point }] := by
  constructor
  · rfl
  · rfl

/-- Claim C6 (amended): `updateAnnotation(id, partialFields)` with an absent
id is a silent no-op (no `NotFoundError`); with a present id it merges the
provided fields over every matching annotation, with no re-validation of
the point/interval invariant. -/
theorem C6_update_merge (anns : List Annot) (i : ℕ) (p : AnnotPatch) :
    ((∀ a ∈ anns, a.id ≠ i) → handleAnnotationUpdate anns i p = anns) ∧
    (∀ a ∈ anns, a.id = i → applyPatch a p ∈ handleAnnotationUpdate anns i p) := by
  constructor
  · intro h
    have : ∀ a ∈ anns, (if a.id = i then applyPatch a p else a) = a := by
      intro a ha
      simp [h a ha]
    calc handleAnnotationUpdate anns i p
        = anns.map id := List.map_congr_left (by simpa using this)
      _ = anns := anns.map_id
  · intro a ha hid
    have : applyPatch a p = (if a.id = i then applyPatch a p else a) := by
      simp [hid]
    rw [this]
    exact List.mem_map_of_mem _ ha

/-- Closed instance of `C6_update_merge` at concrete inputs. -/
theorem C6_update_merge_witness :
    handleAnnotationUpdate
        [{ id := 7, tier := "T", start := 0, endT := 1, text := "",
           type := AnnType.interval }] 9 { text := some "x" } =
      [{ id := 7, tier := "T", start := 0, endT := 1, text := "",
         type := AnnType.interval }] :=
  (C6_update_merge _ 9 _).1 (by decide)

/-- Claim C10: importing never decreases the duration — it is unchanged
when the imported duration is less than or equal to the current one, and
updated exactly when strictly greater. -/
theorem C10_import_duration (st : HomeState) (result : ImportResult) :
    (result.duration ≤ st.duration →
      (handleAnnotationImport st result).duration = st.duration) ∧
    (st.duration < result.duration →
      (handleAnnotationImport st result).duration = result.duration) := by
  constructor
  · intro h
    simp [handleAnnotationImport, not_lt_of_ge h]
  · intro h
    simp [handleAnnotationImport, h]

/-- Closed instance of `C10_import_duration` at concrete inputs. -/
theorem C10_import_duration_witness :
    (handleAnnotationImport ⟨[], [], [], 5⟩ ⟨[], [], 3⟩).duration = 5 :=
  (C10_import_duration _ _).1 (by norm_num)

/-- Claim C9 (counterexample): with `duration = 1`, `width = 800` and the
selection `[0, 9/10]`, the handler sets `scrollX = 0`, while the claimed
formula `selectionStart * pixelsPerSecond - 0.05 * width` evaluates to
`-40`: the code clamps the scroll offset at `0`. -/
theorem C9_counterexample :
    (onZoomToSelection (some 0) (some (9/10)) 1 800 1 7).scrollX = 0 ∧
    (0 : ℚ) * (800 * (onZoomToSelection (some 0) (some (9/10)) 1 800 1 7).zoomLevel / 1)
      - 800 * (5/100) = -40 ∧
    (0 : ℚ) ≠ -40 := by
  refine ⟨?_, ?_, by norm_num⟩
  · norm_num [onZoomToSelection]
  · norm_num [onZoomToSelection]

/-- Claim C9 (amended): for a non-empty selection `s < e` (the maintained
selection invariant orders the bounds) and `duration > 0`, the zoom level
becomes `(duration / (e - s)) * 0.9` clamped to `[1, 100]`, and the scroll
offset becomes `s * pixelsPerSecond - 0.05 * width` clamped below at `0`
(so the selection start sits at 5% of the viewport only when that offset
is non-negative). -/
theorem C9_zoom_to_selection (s e duration width zoom scroll : ℚ)
    (hse : s < e) (hd : 0 < duration) :
    (onZoomToSelection (some s) (some e) duration width zoom scroll).zoomLevel =
      max 1 (min (duration / (e - s) * (9/10)) 100) ∧
    (onZoomToSelection (some s) (some e) duration width zoom scroll).scrollX =
      max 0 (s * (width * max 1 (min (duration / (e - s) * (9/10)) 100) / duration)
        - width * (5/100)) ∧
    (0 ≤ s * (width * max 1 (min (duration / (e - s) * (9/10)) 100) / duration)
        - width * (5/100) →
      (onZoomToSelection (some s) (some e) duration width zoom scroll).scrollX =
        s * (width * max 1 (min (duration / (e - s) * (9/10)) 100) / duration)
          - width * (5/100)) := by
  have hne : s ≠ e := ne_of_lt hse
  have habs : |e - s| = e - s := abs_of_pos (by linarith)
  have hmin : min s e = s := min_eq_left (le_of_lt hse)
  refine ⟨?_, ?_, ?_⟩
  · simp [onZoomToSelection, hne, hd, habs, hmin]
  · simp [onZoomToSelection, hne, hd, habs, hmin]
  · intro hpos
    simp [onZoomToSelection, hne, hd, habs, hmin, max_eq_right hpos]

/-- Closed instance of `C9_zoom_to_selection`: selection `[1/2, 3/4]` of a
2-second file in an 800-pixel viewport. -/
theorem C9_zoom_to_selection_witness :
    (0 : ℚ) < 2 ∧
    (onZoomToSelection (some (1/2)) (some (3/4)) 2 800 1 0).zoomLevel =
      max 1 (min ((2 : ℚ) / (3/4 - 1/2) * (9/10)) 100) :=
  ⟨by norm_num, (C9_zoom_to_selection (1/2) (3/4) 2 800 1 0 (by norm_num) (by norm_num)).1⟩

/-- Claim C3: setting a value deep-equal to the present is a no-op — the
past stack does not grow and the future stack is not cleared — and two
consecutive `set` calls with the same value produce at most one history
transition, the second call always being a no-op. -/
theorem C3_set_unchanged_noop {T : Type} [DecidableEq T] (s : HistState T)
    (x : T) :
    (x = s.present → histSet 100 s x = s) ∧
    histSet 100 (histSet 100 s x) x = histSet 100 s x := by
  constructor
  · intro h
    simp [histSet, h]
  · by_cases h : x = s.present
    · simp [histSet, h]
    · have h1 : histSet 100 s x =
          { past := jsSliceLast 100 (s.past ++ [s.present]), present := x,
            future := [] } := by
        simp [histSet, h]
      rw [h1]
      simp [histSet]

/-- Closed instance of `C3_set_unchanged_noop`: re-setting the present
value `5` leaves the state untouched. -/
theorem C3_set_unchanged_noop_witness :
    histSet 100 (histInit (5 : ℕ)) 5 = histInit (5 : ℕ) :=
  (C3_set_unchanged_noop (histInit (5 : ℕ)) 5).1 rfl

/-- Claim C4: from any state with a non-empty past, `undo` followed by
`redo` restores the state exactly — present, past and future. -/
theorem C4_undo_redo (T : Type) (s : HistState T) (h : s.past ≠ []) :
    histRedo (histUndo s) = s := by
  cases s with
  | mk past present future =>
    have h' : past ≠ [] := h
    simp only [histUndo]
    rw [List.getLast?_eq_getLast past h']
    simp [histRedo, List.dropLast_append_getLast]

/-- Closed instance of `C4_undo_redo` on the state `⟨[1], 2, [3]⟩`. -/
theorem C4_undo_redo_witness :
    histRedo (histUndo { past := [1], present := 2, future := [3] }) =
      { past := ([1] : List ℕ), present := 2, future := [3] } :=
  C4_undo_redo ℕ _ (by decide)

/-- Sum of the stack sizes is preserved or reduced by every hook call with
the reference bound 100. -/
theorem applyHistOp_size_bound {T : Type} [DecidableEq T] (s : HistState T)
    (op : HistOp T) (h : s.past.length + s.future.length ≤ 100) :
    (applyHistOp 100 s op).past.length +
      (applyHistOp 100 s op).future.length ≤ 100 := by
  cases op with
  | set v =>
      by_cases hv : v = s.present
      · simpa [applyHistOp, histSet, hv] using h
      · simp only [applyHistOp, histSet, hv, if_false]
        simp [jsSliceLast]
        omega
  | undo =>
      cases hp : s.past.getLast? with
      | none => simpa [applyHistOp, histUndo, hp] using h
      | some previous =>
          have hne : s.past ≠ [] := by
            intro hz
            rw [hz] at hp
            exact Option.noConfusion hp
          have hlen : s.past.length ≠ 0 := fun hz => hne (List.eq_nil_of_length_eq_zero hz)
          simp only [applyHistOp, histUndo, hp]
          simp only [List.length_dropLast, List.length_cons]
          omega
  | redo =>
      cases hf : s.future with
      | nil => simpa [applyHistOp, histRedo, hf] using h
      | cons next rest =>
          rw [hf] at h
          simp only [applyHistOp, histRedo, hf]
          simp only [List.length_append, List.length_cons, List.length_nil] at h ⊢
          omega
  | reset v => simp [applyHistOp, histReset]

/-- The stack-size bound is an invariant of arbitrary call sequences. -/
theorem runHistOps_size_bound {T : Type} [DecidableEq T] (s : HistState T)
    (ops : List (HistOp T)) (h : s.past.length + s.future.length ≤ 100) :
    (runHistOps 100 s ops).past.length +
      (runHistOps 100 s ops).future.length ≤ 100 := by
  induction ops generalizing s with
  | nil => simpa [runHistOps] using h
  | cons op rest ih =>
      have step := applyHistOp_size_bound s op h
      simpa [runHistOps, List.foldl_cons] using
        ih (applyHistOp 100 s op) step

/-- Claim C5: starting from the initial state, the past stack never exceeds
the bound 100 under any finite sequence of `set`/`undo`/`redo`/`reset`
calls, and a history-pushing `set` keeps only a suffix of
`past ++ [present]` — the oldest entries are dropped first. -/
theorem C5_history_bounded {T : Type} [DecidableEq T] (initialState : T) :
    (∀ ops : List (HistOp T),
      (runHistOps 100 (histInit initialState) ops).past.length ≤ 100) ∧
    (∀ (s : HistState T) (v : T), v ≠ s.present →
      (histSet 100 s v).past.IsSuffix (s.past ++ [s.present])) := by
  constructor
  · intro ops
    have h0 : (histInit initialState).past.length +
        (histInit initialState).future.length ≤ 100 := by
      simp [histInit]
    have := runHistOps_size_bound (histInit initialState) ops h0
    omega
  · intro s v hv
    simp only [histSet, hv, if_false]
    simp only [jsSliceLast]
    by_cases h100 : (100 : ℕ) = 0
    · omega
    · simp only [if_neg h100]
      exact List.drop_suffix _ _

/-- Closed instance of `C5_history_bounded`: a concrete call sequence stays
within the bound, and a pushing `set` keeps a suffix of the old stack. -/
theorem C5_history_bounded_witness :
    (runHistOps 100 (histInit (0 : ℕ))
      [HistOp.set 1, HistOp.set 2, HistOp.undo, HistOp.redo]).past.length ≤ 100 ∧
    (histSet 100 (histInit (0 : ℕ)) 1).past.IsSuffix ([] ++ [0]) :=
  ⟨(C5_history_bounded (0 : ℕ)).1 _,
   (C5_history_bounded (0 : ℕ)).2 (histInit (0 : ℕ)) 1 (by decide)⟩

/-- Membership in the JavaScript-`Set` de-duplication: an element of the
output is an element of the input not already seen. -/
theorem mem_jsSetDedupAux {α : Type} [DecidableEq α] (l : List α) :
    ∀ (seen : List α) (a : α),
      a ∈ jsSetDedupAux seen l ↔ a ∈ l ∧ a ∉ seen := by
  induction l with
  | nil => intro seen a; simp [jsSetDedupAux]
  | cons x xs ih =>
    intro seen a
    by_cases hx : x ∈ seen
    · rw [jsSetDedupAux, if_pos hx, ih]
      constructor
      · rintro ⟨ha, hns⟩
        exact ⟨List.mem_cons_of_mem x ha, hns⟩
      · rintro ⟨ha, hns⟩
        rcases List.mem_cons.mp ha with rfl | ha'
        · exact absurd hx hns
        · exact ⟨ha', hns⟩
    · rw [jsSetDedupAux, if_neg hx]
      by_cases hax : a = x
      · subst hax
        simp [hx]
      · simp only [List.mem_cons, hax, false_or]
        rw [ih]
        simp [hax]

theorem mem_jsSetDedup {α : Type} [DecidableEq α] (l : List α) (a : α) :
    a ∈ jsSetDedup l ↔ a ∈ l := by
  rw [jsSetDedup, mem_jsSetDedupAux]
  simp

/-- The comparator used for boundary sorting is transitive. -/
theorem ratLe_trans :
    ∀ (a b c : ℚ), ratLe a b = true → ratLe b c = true → ratLe a c = true := by
  intro a b c hab hbc
  simp only [ratLe, decide_eq_true_eq] at *
  exact le_trans hab hbc

/-- The comparator used for boundary sorting is total. -/
theorem ratLe_total : ∀ (a b : ℚ), (ratLe a b || ratLe b a) = true := by
  intro a b
  simp only [ratLe, Bool.or_eq_true, decide_eq_true_eq]
  exact le_total a b

/-- The boundary list contains exactly the start/end values of the
annotations. -/
theorem mem_findBoundaries (anns : List Annot) (b : ℚ) :
    b ∈ findBoundaries anns ↔ ∃ a ∈ anns, b = a.start ∨ b = a.endT := by
  unfold findBoundaries
  rw [(List.mergeSort_perm _ ratLe).mem_iff, mem_jsSetDedup]
  simp [List.mem_flatMap]

/-- The boundary list is sorted in ascending order. -/
theorem sorted_findBoundaries (anns : List Annot) :
    (findBoundaries anns).Pairwise (fun a b : ℚ => a ≤ b) := by
  have h := List.sorted_mergeSort ratLe_trans ratLe_total
      (jsSetDedup (anns.flatMap fun a => [a.start, a.endT]))
  unfold findBoundaries
  refine List.Pairwise.imp ?_ h
  intro a b hab
  simpa [ratLe] using hab

/-- In an ascending list, `getLast?` returns a maximum. -/
theorem sorted_getLast?_max :
    ∀ (l : List ℚ), l.Pairwise (fun a b : ℚ => a ≤ b) →
      ∀ p, l.getLast? = some p → p ∈ l ∧ ∀ b ∈ l, b ≤ p := by
  intro l
  induction l with
  | nil => intro _ p hp; simp at hp
  | cons x xs ih =>
    intro hs p hp
    cases hxs : xs with
    | nil =>
      subst hxs
      simp only [List.getLast?_singleton, Option.some.injEq] at hp
      subst hp
      simp
    | cons y ys =>
      subst hxs
      rw [List.getLast?_cons_cons] at hp
      obtain ⟨hpm, hball⟩ := ih (List.Pairwise.of_cons hs) p hp
      have hxall : ∀ b ∈ y :: ys, x ≤ b := (List.pairwise_cons.mp hs).1
      refine ⟨List.mem_cons_of_mem x hpm, ?_⟩
      intro b hb
      rcases List.mem_cons.mp hb with rfl | hbm
      · exact hxall p hpm
      · exact hball b hbm

/-- In an ascending list, `find?` returns a minimum among the elements
satisfying the predicate. -/
theorem sorted_find?_min :
    ∀ (l : List ℚ) (pred : ℚ → Bool),
      l.Pairwise (fun a b : ℚ => a ≤ b) → ∀ q, l.find? pred = some q →
      q ∈ l ∧ pred q = true ∧ ∀ b ∈ l, pred b = true → q ≤ b := by
  intro l pred
  induction l with
  | nil => intro _ q hq; simp at hq
  | cons x xs ih =>
    intro hs q hq
    by_cases hx : pred x = true
    · rw [List.find?_cons_of_pos _ hx, Option.some.injEq] at hq
      subst hq
      refine ⟨List.mem_cons_self _ _, hx, ?_⟩
      intro b hb _
      rcases List.mem_cons.mp hb with rfl | hbm
      · exact le_refl _
      · exact (List.pairwise_cons.mp hs).1 b hbm
    · rw [List.find?_cons_of_neg _ (by simpa using hx)] at hq
      obtain ⟨hqm, hpq, hmin⟩ := ih (List.Pairwise.of_cons hs) q hq
      refine ⟨List.mem_cons_of_mem _ hqm, hpq, ?_⟩
      intro b hb hpb
      rcases List.mem_cons.mp hb with rfl | hbm
      · exact absurd hpb hx
      · exact hmin b hbm hpb

/-- Claim C7: the boundary set is the set of all start/end values;
`onPreviousBoundary t` returns the greatest boundary strictly below
`t - 0.01` and `onNextBoundary t` the least boundary strictly above
`t + 0.01`, and each returns a value whenever such a boundary exists. -/
theorem C7_boundary_navigation (anns : List Annot) (t : ℚ) :
    (∀ b : ℚ, b ∈ findBoundaries anns ↔ ∃ a ∈ anns, b = a.start ∨ b = a.endT) ∧
    (∀ p, onPreviousBoundary anns t = some p →
      p ∈ findBoundaries anns ∧ p < t - 1/100 ∧
      ∀ b ∈ findBoundaries anns, b < t - 1/100 → b ≤ p) ∧
    (∀ q, onNextBoundary anns t = some q →
      q ∈ findBoundaries anns ∧ t + 1/100 < q ∧
      ∀ b ∈ findBoundaries anns, t + 1/100 < b → q ≤ b) ∧
    ((∃ b ∈ findBoundaries anns, b < t - 1/100) →
      (onPreviousBoundary anns t).isSome = true) ∧
    ((∃ b ∈ findBoundaries anns, t + 1/100 < b) →
      (onNextBoundary anns t).isSome = true) := by
  have hsorted := sorted_findBoundaries anns
  have hfiltered : ((findBoundaries anns).filter fun b =>
      decide (b < t - 1/100)).Pairwise (fun a b : ℚ => a ≤ b) :=
    List.Pairwise.sublist (List.filter_sublist _) hsorted
  refine ⟨mem_findBoundaries anns, ?_, ?_, ?_, ?_⟩
  · intro p hp
    obtain ⟨hpm, hmax⟩ := sorted_getLast?_max _ hfiltered p hp
    have hpm' := List.mem_filter.mp hpm
    refine ⟨hpm'.1, by simpa using hpm'.2, ?_⟩
    intro b hb hlt
    exact hmax b (List.mem_filter.mpr ⟨hb, by simpa using hlt⟩)
  · intro q hq
    obtain ⟨hqm, hpq, hmin⟩ := sorted_find?_min _ _ hsorted q hq
    refine ⟨hqm, by simpa using hpq, ?_⟩
    intro b hb hlt
    exact hmin b hb (by simpa using hlt)
  · rintro ⟨b, hb, hlt⟩
    have : b ∈ (findBoundaries anns).filter fun b =>
        decide (b < t - 1/100) :=
      List.mem_filter.mpr ⟨hb, by simpa using hlt⟩
    rw [onPreviousBoundary, List.getLast?_isSome]
    exact List.ne_nil_of_mem this
  · rintro ⟨b, hb, hlt⟩
    rw [onNextBoundary, List.find?_isSome]
    exact ⟨b, hb, by simpa using hlt⟩

/-- Closed instance of `C7_boundary_navigation`: with boundaries
`{1, 2, 2, 3.5}`, `previousBoundary(2) = 1` and `nextBoundary(2) = 3.5`,
and these are extremal. -/
theorem C7_boundary_navigation_witness :
    onPreviousBoundary boundaryDemo 2 = some 1 ∧
    onNextBoundary boundaryDemo 2 = some (7/2) ∧
    (∀ b ∈ findBoundaries boundaryDemo, b < 2 - 1/100 → b ≤ 1) ∧
    (∀ b ∈ findBoundaries boundaryDemo, 2 + 1/100 < b → 7/2 ≤ b) := by
  have hb : findBoundaries boundaryDemo = [1, 2, 7/2] := by
    norm_num [findBoundaries, boundaryDemo, jsSetDedup, jsSetDedupAux,
      List.mergeSort, ratLe]
  have hprev : onPreviousBoundary boundaryDemo 2 = some 1 := by
    rw [onPreviousBoundary, hb]
    norm_num [List.filter]
  have hnext : onNextBoundary boundaryDemo 2 = some (7/2) := by
    rw [onNextBoundary, hb]
    norm_num [List.find?]
  exact ⟨hprev, hnext,
    fun b hb2 hlt =>
      ((C7_boundary_navigation boundaryDemo 2).2.1 1 hprev).2.2 b hb2 hlt,
    fun b hb2 hlt =>
      ((C7_boundary_navigation boundaryDemo 2).2.2.1 (7/2) hnext).2.2 b hb2 hlt⟩

/-- A property preserved by every step of a fold holds of the result. -/
theorem foldl_preserve {β γ : Type} (P : β → Prop) (f : β → γ → β) :
    ∀ (l : List γ), (∀ acc x, x ∈ l → P acc → P (f acc x)) →
      ∀ acc, P acc → P (l.foldl f acc) := by
  intro l
  induction l with
  | nil => intro _ acc h; simpa using h
  | cons x xs ih =>
    intro hstep acc h
    rw [List.foldl_cons]
    exact ih (fun acc' y hy => hstep acc' y (List.mem_cons_of_mem x hy))
      (f acc x) (hstep acc x (List.mem_cons_self x xs) h)

/-- `setFirstPoint` does not change the name column. -/
theorem setFirstPoint_names :
    ∀ (cfgs : List TierConfig) (m : String),
      (setFirstPoint cfgs m).map TierConfig.name =
        cfgs.map TierConfig.name := by
  intro cfgs m
  induction cfgs with
  | nil => rfl
  | cons c rest ih =>
    by_cases hc : c.name = m
    · simp [setFirstPoint, hc]
    · simp [setFirstPoint, hc, ih]

/-- `setFirstPoint` preserves the invariant that every config with a given
name is point-typed: it only ever sets types to `point`. -/
theorem setFirstPoint_pointQ (n : String) :
    ∀ (cfgs : List TierConfig) (m : String),
      (∀ c ∈ cfgs, c.name = n → c.type = AnnType.point) →
      ∀ c ∈ setFirstPoint cfgs m, c.name = n → c.type = AnnType.point := by
  intro cfgs m
  induction cfgs with
  | nil => intro h c hc; simp [setFirstPoint] at hc
  | cons c0 rest ih =>
    intro h c hc hname
    by_cases hc0 : c0.name = m
    · rw [setFirstPoint, if_pos hc0] at hc
      rcases List.mem_cons.mp hc with rfl | hcr
      · rfl
      · exact h c (List.mem_cons_of_mem c0 hcr) hname
    · rw [setFirstPoint, if_neg hc0] at hc
      rcases List.mem_cons.mp hc with rfl | hcr
      · exact h c (List.mem_cons_self _ _) hname
      · exact ih (fun c' hc' => h c' (List.mem_cons_of_mem c0 hc')) c hcr hname

/-- `setFirstPoint` preserves membership of a point-typed config: the only
replacement it performs writes a point-typed config of the same name. -/
theorem setFirstPoint_mem_point (n : String) :
    ∀ (cfgs : List TierConfig) (m : String),
      ({ name := n, type := AnnType.point } : TierConfig) ∈ cfgs →
      ({ name := n, type := AnnType.point } : TierConfig) ∈
        setFirstPoint cfgs m := by
  intro cfgs m
  induction cfgs with
  | nil => intro h; simp at h
  | cons c0 rest ih =>
    intro h
    by_cases hc0 : c0.name = m
    · rw [setFirstPoint, if_pos hc0]
      rcases List.mem_cons.mp h with heq | hcr
      · have hn : c0.name = n := by rw [← heq]
        rw [hn]
        exact List.mem_cons_self _ _
      · exact List.mem_cons_of_mem _ hcr
    · rw [setFirstPoint, if_neg hc0]
      rcases List.mem_cons.mp h with heq | hcr
      · exact heq ▸ List.mem_cons_self _ _
      · exact List.mem_cons_of_mem _ (ih hcr)

/-- When the only config named `n` is the last one, `setFirstPoint` turns
exactly it into the point-typed config. -/
theorem setFirstPoint_append_last (n : String) (τ : AnnType) :
    ∀ (A : List TierConfig), (∀ c ∈ A, c.name ≠ n) →
      setFirstPoint (A ++ [{ name := n, type := τ }]) n =
        A ++ [{ name := n, type := AnnType.point }] := by
  intro A
  induction A with
  | nil => intro _; simp [setFirstPoint]
  | cons c rest ih =>
    intro h
    have hc : c.name ≠ n := h c (List.mem_cons_self _ _)
    rw [List.cons_append, setFirstPoint, if_neg hc,
      ih fun c' hc' => h c' (List.mem_cons_of_mem c hc')]
    rfl

/-- `processAlignable` either leaves the configs unchanged or applies
`setFirstPoint` with the current tier name. -/
theorem processAlignable_configs (ts : List (String × ℚ)) (m : String)
    (acc : EAFAcc) (ann : EAFAlignable) :
    (processAlignable ts m acc ann).tierConfigs = acc.tierConfigs ∨
    (processAlignable ts m acc ann).tierConfigs =
      setFirstPoint acc.tierConfigs m := by
  obtain ⟨ref1, ref2, value⟩ := ann
  cases ref1 with
  | none => left; rfl
  | some r1 =>
    cases ref2 with
    | none => left; rfl
    | some r2 =>
      simp only [processAlignable]
      by_cases he : r1 = "" ∨ r2 = ""
      · left; rw [if_pos he]
      · rw [if_neg he]
        by_cases hp : (mapGet ts r1).getD 0 = (mapGet ts r2).getD 0
        · right; simp [hp]
        · left; simp [hp]

/-- `processRef` never touches the configs. -/
theorem processRef_configs (m : String) (acc : EAFAcc) (r : EAFRef) :
    (processRef m acc r).tierConfigs = acc.tierConfigs := by
  rw [processRef]
  by_cases h : r.value = ""
  · rw [if_pos h]
  · rw [if_neg h]

/-- `processAlignable` only appends annotations. -/
theorem processAlignable_annotations (ts : List (String × ℚ)) (m : String)
    (acc : EAFAcc) (ann : EAFAlignable) :
    ∃ l, (processAlignable ts m acc ann).annotations =
      acc.annotations ++ l := by
  obtain ⟨ref1, ref2, value⟩ := ann
  cases ref1 with
  | none => exact ⟨[], by simp [processAlignable]⟩
  | some r1 =>
    cases ref2 with
    | none => exact ⟨[], by simp [processAlignable]⟩
    | some r2 =>
      simp only [processAlignable]
      by_cases he : r1 = "" ∨ r2 = ""
      · rw [if_pos he]; exact ⟨[], by simp⟩
      · rw [if_neg he]
        by_cases hp : (mapGet ts r1).getD 0 = (mapGet ts r2).getD 0
        · simp [hp]
        · simp [hp]

/-- `processRef` only appends annotations. -/
theorem processRef_annotations (m : String) (acc : EAFAcc) (r : EAFRef) :
    ∃ l, (processRef m acc r).annotations = acc.annotations ++ l := by
  rw [processRef]
  by_cases h : r.value = ""
  · rw [if_pos h]; exact ⟨[], by simp⟩
  · rw [if_neg h]; exact ⟨_, rfl⟩

/-- Folding annotation-appending steps only appends annotations. -/
theorem foldl_annotations_append {γ : Type} (f : EAFAcc → γ → EAFAcc)
    (hf : ∀ acc x, ∃ l, (f acc x).annotations = acc.annotations ++ l) :
    ∀ (xs : List γ) (acc : EAFAcc),
      ∃ l, (xs.foldl f acc).annotations = acc.annotations ++ l := by
  intro xs
  induction xs with
  | nil => intro acc; exact ⟨[], by simp⟩
  | cons x rest ih =>
    intro acc
    obtain ⟨l1, h1⟩ := hf acc x
    obtain ⟨l2, h2⟩ := ih (f acc x)
    exact ⟨l1 ++ l2, by rw [List.foldl_cons, h2, h1, List.append_assoc]⟩

/-- `processTier` appends exactly its own tier name to the name column. -/
theorem processTier_names (ts : List (String × ℚ)) (acc : EAFAcc)
    (t : EAFTier) :
    (processTier ts acc t).tierConfigs.map TierConfig.name =
      acc.tierConfigs.map TierConfig.name ++ [eafTierName t] := by
  rw [processTier]
  have halign : ∀ (xs : List EAFAlignable) (acc' : EAFAcc),
      (xs.foldl (processAlignable ts (eafTierName t)) acc').tierConfigs.map
          TierConfig.name = acc'.tierConfigs.map TierConfig.name := by
    intro xs
    induction xs with
    | nil => intro acc'; rfl
    | cons x rest ih =>
      intro acc'
      rw [List.foldl_cons, ih]
      rcases processAlignable_configs ts (eafTierName t) acc' x with h | h
      · rw [h]
      · rw [h, setFirstPoint_names]
  have hrefs : ∀ (xs : List EAFRef) (acc' : EAFAcc),
      (xs.foldl (processRef (eafTierName t)) acc').tierConfigs.map
          TierConfig.name = acc'.tierConfigs.map TierConfig.name := by
    intro xs
    induction xs with
    | nil => intro acc'; rfl
    | cons x rest ih =>
      intro acc'
      rw [List.foldl_cons, ih, processRef_configs]
  rw [hrefs, halign]
  simp

/-- The name column of a fold of `processTier` steps is the accumulated
names followed by the processed tier names. -/
theorem foldl_processTier_names (ts : List (String × ℚ)) :
    ∀ (tiers : List EAFTier) (acc : EAFAcc),
      (tiers.foldl (processTier ts) acc).tierConfigs.map TierConfig.name =
        acc.tierConfigs.map TierConfig.name ++ tiers.map eafTierName := by
  intro tiers
  induction tiers with
  | nil => intro acc; simp
  | cons t rest ih =>
    intro acc
    rw [List.foldl_cons, ih, processTier_names]
    simp

/-- `processAlignable` preserves the C8 invariant. -/
theorem processAlignable_preserves (ts : List (String × ℚ)) (m n : String)
    (k : String × ℚ × ℚ × String × AnnType) (acc : EAFAcc)
    (ann : EAFAlignable) (h : eafInv n k acc) :
    eafInv n k (processAlignable ts m acc ann) := by
  obtain ⟨hk, hm, hq⟩ := h
  obtain ⟨l, hl⟩ := processAlignable_annotations ts m acc ann
  refine ⟨?_, ?_, ?_⟩
  · rw [hl, List.map_append]
    exact List.mem_append_left _ hk
  · rcases processAlignable_configs ts m acc ann with hc | hc
    · rw [hc]; exact hm
    · rw [hc]; exact setFirstPoint_mem_point n acc.tierConfigs m hm
  · rcases processAlignable_configs ts m acc ann with hc | hc
    · rw [hc]; exact hq
    · rw [hc]; exact setFirstPoint_pointQ n acc.tierConfigs m hq

/-- `processRef` preserves the C8 invariant. -/
theorem processRef_preserves (m n : String)
    (k : String × ℚ × ℚ × String × AnnType) (acc : EAFAcc) (r : EAFRef)
    (h : eafInv n k acc) : eafInv n k (processRef m acc r) := by
  obtain ⟨hk, hm, hq⟩ := h
  obtain ⟨l, hl⟩ := processRef_annotations m acc r
  refine ⟨?_, ?_, ?_⟩
  · rw [hl, List.map_append]
    exact List.mem_append_left _ hk
  · rw [processRef_configs]; exact hm
  · rw [processRef_configs]; exact hq

/-- `processTier` for a tier with a different name preserves the C8
invariant. -/
theorem processTier_preserves (ts : List (String × ℚ)) (n : String)
    (k : String × ℚ × ℚ × String × AnnType) (acc : EAFAcc) (t : EAFTier)
    (hne : eafTierName t ≠ n) (h : eafInv n k acc) :
    eafInv n k (processTier ts acc t) := by
  obtain ⟨hk, hm, hq⟩ := h
  rw [processTier]
  have h1 : eafInv n k
      { acc with tierConfigs := acc.tierConfigs ++
          [{ name := eafTierName t, type := AnnType.interval }] } := by
    refine ⟨hk, List.mem_append_left _ hm, ?_⟩
    intro c hc hcn
    rcases List.mem_append.mp hc with hc' | hc'
    · exact hq c hc' hcn
    · rcases List.mem_singleton.mp hc' with rfl
      exact absurd hcn hne
  have h2 := foldl_preserve (eafInv n k) (processAlignable ts (eafTierName t))
    t.alignable
    (fun acc' x _ => processAlignable_preserves ts (eafTierName t) n k acc' x)
    _ h1
  exact foldl_preserve (eafInv n k) (processRef (eafTierName t)) t.refs
    (fun acc' x _ => processRef_preserves (eafTierName t) n k acc' x) _ h2

/-- Claim C8: in a well-formed EAF document (distinct tier ids), every
`ALIGNABLE_ANNOTATION` whose two (truthy) time-slot references resolve to
the same value `v` produces an annotation `(tier, v, v, text, point)`, and
the owning tier's declared type in the returned tier configs is `point` —
regardless of any other annotations on that tier. -/
theorem C8_elan_point_inference (doc : EAFDoc) (t : EAFTier)
    (a : EAFAlignable) (r1 r2 : String) (v : ℚ)
    (hnd : (doc.tiers.map eafTierName).Nodup)
    (ht : t ∈ doc.tiers) (ha : a ∈ t.alignable)
    (h1 : a.ref1 = some r1) (h2 : a.ref2 = some r2)
    (hr1 : r1 ≠ "") (hr2 : r2 ≠ "")
    (hv1 : (mapGet (buildTimeSlots doc.slots) r1).getD 0 = v)
    (hv2 : (mapGet (buildTimeSlots doc.slots) r2).getD 0 = v) :
    (eafTierName t, v, v, a.value, AnnType.point) ∈
      (parseELANXML doc).annotations.map annKey ∧
    ({ name := eafTierName t, type := AnnType.point } : TierConfig) ∈
      (parseELANXML doc).tierConfigs ∧
    ∀ c ∈ (parseELANXML doc).tierConfigs, c.name = eafTierName t →
      c.type = AnnType.point := by
  obtain ⟨aref1, aref2, aval⟩ := a
  simp only at h1 h2 ha ⊢
  subst h1
  subst h2
  obtain ⟨pre, post, hsplit⟩ := List.append_of_mem ht
  obtain ⟨al1, al2, hasplit⟩ := List.append_of_mem ha
  -- names accumulated before our tier, and distinctness facts
  have hnames : (pre.foldl (processTier (buildTimeSlots doc.slots))
      (EAFAcc.mk [] [] 0)).tierConfigs.map TierConfig.name =
      pre.map eafTierName := by
    rw [foldl_processTier_names]
    simp
  have hpre : eafTierName t ∉ pre.map eafTierName := by
    rw [hsplit, List.map_append, List.map_cons, List.nodup_append] at hnd
    intro hmem
    exact hnd.2.2 hmem (List.mem_cons_self _ _)
  have hpost : ∀ t' ∈ post, eafTierName t' ≠ eafTierName t := by
    rw [hsplit, List.map_append, List.map_cons, List.nodup_append] at hnd
    intro t' ht' heq
    apply (List.nodup_cons.mp hnd.2.1).1
    rw [← heq]
    exact List.mem_map_of_mem eafTierName ht'
  have hC0 : ∀ c ∈ (pre.foldl (processTier (buildTimeSlots doc.slots))
      (EAFAcc.mk [] [] 0)).tierConfigs, c.name ≠ eafTierName t := by
    intro c hc heq
    apply hpre
    rw [← heq, ← hnames]
    exact List.mem_map_of_mem TierConfig.name hc
  -- the step at our annotation, from any accumulator
  have hstep : ∀ x : EAFAcc,
      processAlignable (buildTimeSlots doc.slots) (eafTierName t) x
          (EAFAlignable.mk (some r1) (some r2) aval) =
        EAFAcc.mk
          (x.annotations ++
            [Annot.mk x.nextId (eafTierName t) v v aval AnnType.point])
          (setFirstPoint x.tierConfigs (eafTierName t)) (x.nextId + 1) := by
    intro x
    simp only [processAlignable]
    rw [if_neg (by push_neg; exact ⟨hr1, hr2⟩)]
    rw [hv1, hv2]
    simp
  -- the invariant holds after processing our tier
  have hinvT : eafInv (eafTierName t)
      (eafTierName t, v, v, aval, AnnType.point)
      (processTier (buildTimeSlots doc.slots)
        (pre.foldl (processTier (buildTimeSlots doc.slots))
          (EAFAcc.mk [] [] 0)) t) := by
    rw [processTier]
    rw [hasplit, List.foldl_append, List.foldl_cons]
    have hshape :
        ∀ x : EAFAcc,
          (x.tierConfigs =
              (pre.foldl (processTier (buildTimeSlots doc.slots))
                (EAFAcc.mk [] [] 0)).tierConfigs ++
                [TierConfig.mk (eafTierName t) AnnType.interval] ∨
            x.tierConfigs =
              (pre.foldl (processTier (buildTimeSlots doc.slots))
                (EAFAcc.mk [] [] 0)).tierConfigs ++
                [TierConfig.mk (eafTierName t) AnnType.point]) →
          ∀ annx : EAFAlignable,
            ((processAlignable (buildTimeSlots doc.slots) (eafTierName t)
                x annx).tierConfigs =
              (pre.foldl (processTier (buildTimeSlots doc.slots))
                (EAFAcc.mk [] [] 0)).tierConfigs ++
                [TierConfig.mk (eafTierName t) AnnType.interval] ∨
              (processAlignable (buildTimeSlots doc.slots) (eafTierName t)
                x annx).tierConfigs =
              (pre.foldl (processTier (buildTimeSlots doc.slots))
                (EAFAcc.mk [] [] 0)).tierConfigs ++
                [TierConfig.mk (eafTierName t) AnnType.point]) := by
      intro x hx annx
      rcases processAlignable_configs (buildTimeSlots doc.slots)
        (eafTierName t) x annx with hc | hc
      · rw [hc]; exact hx
      · rw [hc]
        rcases hx with hx | hx
        · right
          rw [hx, setFirstPoint_append_last (eafTierName t)
            AnnType.interval _ hC0]
        · right
          rw [hx, setFirstPoint_append_last (eafTierName t)
            AnnType.point _ hC0]
    have hA := foldl_preserve
      (fun x : EAFAcc =>
        x.tierConfigs =
          (pre.foldl (processTier (buildTimeSlots doc.slots))
            (EAFAcc.mk [] [] 0)).tierConfigs ++
            [TierConfig.mk (eafTierName t) AnnType.interval] ∨
        x.tierConfigs =
          (pre.foldl (processTier (buildTimeSlots doc.slots))
            (EAFAcc.mk [] [] 0)).tierConfigs ++
            [TierConfig.mk (eafTierName t) AnnType.point])
      (processAlignable (buildTimeSlots doc.slots) (eafTierName t)) al1
      (fun acc' x _ hx => hshape acc' hx x)
      (EAFAcc.mk
        (pre.foldl (processTier (buildTimeSlots doc.slots))
          (EAFAcc.mk [] [] 0)).annotations
        ((pre.foldl (processTier (buildTimeSlots doc.slots))
          (EAFAcc.mk [] [] 0)).tierConfigs ++
          [TierConfig.mk (eafTierName t) AnnType.interval])
        (pre.foldl (processTier (buildTimeSlots doc.slots))
          (EAFAcc.mk [] [] 0)).nextId)
      (Or.inl rfl)
    have hinvA : eafInv (eafTierName t)
        (eafTierName t, v, v, aval, AnnType.point)
        (processAlignable (buildTimeSlots doc.slots) (eafTierName t)
          (al1.foldl
            (processAlignable (buildTimeSlots doc.slots) (eafTierName t))
            (EAFAcc.mk
              (pre.foldl (processTier (buildTimeSlots doc.slots))
                (EAFAcc.mk [] [] 0)).annotations
              ((pre.foldl (processTier (buildTimeSlots doc.slots))
                (EAFAcc.mk [] [] 0)).tierConfigs ++
                [TierConfig.mk (eafTierName t) AnnType.interval])
              (pre.foldl (processTier (buildTimeSlots doc.slots))
                (EAFAcc.mk [] [] 0)).nextId))
          (EAFAlignable.mk (some r1) (some r2) aval)) := by
      rw [hstep]
      have hcfg : setFirstPoint
          (al1.foldl
            (processAlignable (buildTimeSlots doc.slots) (eafTierName t))
            (EAFAcc.mk
              (pre.foldl (processTier (buildTimeSlots doc.slots))
                (EAFAcc.mk [] [] 0)).annotations
              ((pre.foldl (processTier (buildTimeSlots doc.slots))
                (EAFAcc.mk [] [] 0)).tierConfigs ++
                [TierConfig.mk (eafTierName t) AnnType.interval])
              (pre.foldl (processTier (buildTimeSlots doc.slots))
                (EAFAcc.mk [] [] 0)).nextId)).tierConfigs (eafTierName t) =
          (pre.foldl (processTier (buildTimeSlots doc.slots))
            (EAFAcc.mk [] [] 0)).tierConfigs ++
            [TierConfig.mk (eafTierName t) AnnType.point] := by
        rcases hA with hx | hx
        · rw [hx, setFirstPoint_append_last (eafTierName t)
            AnnType.interval _ hC0]
        · rw [hx, setFirstPoint_append_last (eafTierName t)
            AnnType.point _ hC0]
      refine ⟨?_, ?_, ?_⟩
      · rw [List.map_append]
        apply List.mem_append_right
        simp [annKey]
      · rw [hcfg]
        exact List.mem_append_right _ (List.mem_singleton.mpr rfl)
      · rw [hcfg]
        intro c hc hcn
        rcases List.mem_append.mp hc with hc' | hc'
        · exact absurd hcn (hC0 c hc')
        · rw [List.mem_singleton.mp hc']
    have hinvAl2 := foldl_preserve
      (eafInv (eafTierName t) (eafTierName t, v, v, aval, AnnType.point))
      (processAlignable (buildTimeSlots doc.slots) (eafTierName t)) al2
      (fun acc' x _ hx => processAlignable_preserves
        (buildTimeSlots doc.slots) (eafTierName t) (eafTierName t)
        (eafTierName t, v, v, aval, AnnType.point) acc' x hx)
      _ hinvA
    exact foldl_preserve
      (eafInv (eafTierName t) (eafTierName t, v, v, aval, AnnType.point))
      (processRef (eafTierName t)) t.refs
      (fun acc' x _ hx => processRef_preserves (eafTierName t)
        (eafTierName t) (eafTierName t, v, v, aval, AnnType.point)
        acc' x hx)
      _ hinvAl2
  -- the invariant survives the remaining tiers
  have hfinal := foldl_preserve
    (eafInv (eafTierName t) (eafTierName t, v, v, aval, AnnType.point))
    (processTier (buildTimeSlots doc.slots)) post
    (fun acc' t' ht' hx =>
      processTier_preserves (buildTimeSlots doc.slots) (eafTierName t)
        (eafTierName t, v, v, aval, AnnType.point) acc' t'
        (hpost t' ht') hx)
    _ hinvT
  have hacc : eafInv (eafTierName t)
      (eafTierName t, v, v, aval, AnnType.point)
      (doc.tiers.foldl (processTier (buildTimeSlots doc.slots))
        (EAFAcc.mk [] [] 0)) := by
    rw [hsplit, List.foldl_append, List.foldl_cons]
    exact hfinal
  simp only [parseELANXML]
  exact ⟨hacc.1, hacc.2.1, hacc.2.2⟩

/-- Closed instance of `C8_elan_point_inference` on `eafDemo`. -/
theorem C8_elan_point_inference_witness :
    ("T", (1 : ℚ), (1 : ℚ), "hi", AnnType.point) ∈
      (parseELANXML eafDemo).annotations.map annKey ∧
    ({ name := "T", type := AnnType.point } : TierConfig) ∈
      (parseELANXML eafDemo).tierConfigs := by
  have hv : (mapGet (buildTimeSlots eafDemo.slots) "s1").getD 0 = (1 : ℚ) := by
    norm_num [eafDemo, buildTimeSlots, mapSet, mapGet, List.find?]
  have hname :
      eafTierName (EAFTier.mk (some "T")
        [EAFAlignable.mk (some "s1") (some "s1") "hi"] []) = "T" := by
    decide
  have h := C8_elan_point_inference eafDemo
    (EAFTier.mk (some "T") [EAFAlignable.mk (some "s1") (some "s1") "hi"] [])
    (EAFAlignable.mk (some "s1") (some "s1") "hi") "s1" "s1" 1
    (by decide) (by decide) (by decide) rfl rfl (by decide) (by decide) hv hv
  rw [hname] at h
  exact ⟨h.1, h.2.1⟩

/-- The serializer's fixed tier class parses back as an interval tier. -/
theorem classToType_intervalTier :
    classToType "IntervalTier" = AnnType.interval := by decide

/-- Folding the parser over the serialized records of one interval tier
emits exactly one annotation per record and returns to the
between-records state. -/
theorem records_fold (tn : String) :
    ∀ (recs A : List Annot) (C : List TierConfig) (d : ℚ) (n : ℕ),
      (recs.flatMap recLines).foldl stepTGLine
        (TGParseState.mk A C d (some (TierConfig.mk tn AnnType.interval))
          (TGRec.mk none none none) true false n) =
      TGParseState.mk (A ++ emitted n tn recs) C d
        (some (TierConfig.mk tn AnnType.interval))
        (TGRec.mk none none none) true false (n + recs.length) := by
  intro recs
  induction recs with
  | nil => intro A C d n; simp [emitted]
  | cons a rest ih =>
    intro A C d n
    rw [List.flatMap_cons, List.foldl_append]
    have h4 : (recLines a).foldl stepTGLine
        (TGParseState.mk A C d (some (TierConfig.mk tn AnnType.interval))
          (TGRec.mk none none none) true false n) =
        TGParseState.mk
          (A ++ [Annot.mk n tn a.start a.endT a.text AnnType.interval]) C d
          (some (TierConfig.mk tn AnnType.interval))
          (TGRec.mk none none none) true false (n + 1) := by
      simp [recLines, stepTGLine]
    rw [h4, ih]
    simp [emitted]
    omega

/-- Folding the parser over one serialized tier block registers the tier
as an interval tier and emits its records. -/
theorem tierBlock_fold (d : ℚ) (anns : List Annot) (tn : String)
    (A : List Annot) (C : List TierConfig) (ct0 : Option TierConfig)
    (n : ℕ) :
    (tierBlock d anns tn).foldl stepTGLine
      (TGParseState.mk A C d ct0 (TGRec.mk none none none) true false n) =
    TGParseState.mk (A ++ emitted n tn (tierRecs anns tn))
      (C ++ [TierConfig.mk tn AnnType.interval]) d
      (some (TierConfig.mk tn AnnType.interval))
      (TGRec.mk none none none) true false
      (n + (tierRecs anns tn).length) := by
  rw [tierBlock, List.foldl_append]
  have h6 : ([TGLine.itemLine, TGLine.classLine "IntervalTier",
      TGLine.nameLine tn, TGLine.xminLine 0, TGLine.xmaxLine d,
      TGLine.intervalsSizeLine (tierRecs anns tn).length]).foldl stepTGLine
        (TGParseState.mk A C d ct0 (TGRec.mk none none none) true false n) =
      TGParseState.mk A (C ++ [TierConfig.mk tn AnnType.interval]) d
        (some (TierConfig.mk tn AnnType.interval))
        (TGRec.mk none none none) true false n := by
    simp [stepTGLine, classToType_intervalTier]
  rw [h6, records_fold]

/-- Folding the parser over all serialized tier blocks. -/
theorem tierBlocks_fold (d : ℚ) (anns : List Annot) :
    ∀ (B : List String) (A : List Annot) (C : List TierConfig)
      (ct0 : Option TierConfig) (n : ℕ),
      ∃ ct' n',
        (B.flatMap (tierBlock d anns)).foldl stepTGLine
          (TGParseState.mk A C d ct0 (TGRec.mk none none none) true false n) =
        TGParseState.mk (A ++ emittedAll n anns B)
          (C ++ B.map fun tn => TierConfig.mk tn AnnType.interval) d ct'
          (TGRec.mk none none none) true false n' := by
  intro B
  induction B with
  | nil => intro A C ct0 n; exact ⟨ct0, n, by simp [emittedAll]⟩
  | cons tn rest ih =>
    intro A C ct0 n
    rw [List.flatMap_cons, List.foldl_append, tierBlock_fold]
    obtain ⟨ct', n', h⟩ := ih (A ++ emitted n tn (tierRecs anns tn))
      (C ++ [TierConfig.mk tn AnnType.interval])
      (some (TierConfig.mk tn AnnType.interval))
      (n + (tierRecs anns tn).length)
    refine ⟨ct', n', ?_⟩
    rw [h]
    simp [emittedAll, List.append_assoc]

/-- Folding the parser over the serialized header reads the duration and
enters the item section with an empty store. -/
theorem header_fold (dur : ℚ) (sz : ℕ) :
    ([TGLine.fileTypeLine, TGLine.objectClassLine, TGLine.blankLine,
      TGLine.xminLine 0, TGLine.xmaxLine dur, TGLine.tiersExistLine,
      TGLine.sizeLine sz, TGLine.itemLine]).foldl stepTGLine
        initTGParseState =
    TGParseState.mk [] [] dur none (TGRec.mk none none none) true false
      0 := by
  simp [stepTGLine, initTGParseState]

/-- Parsing the serialized output of any state yields exactly the
re-created annotations, one interval tier config per exported tier, and
the original duration. -/
theorem parse_serialize (st : HomeState) :
    ∃ ct' n',
      (serializeTextGridLong st).foldl stepTGLine initTGParseState =
      TGParseState.mk (emittedAll 0 st.annotations (allTiers st))
        ((allTiers st).map fun tn => TierConfig.mk tn AnnType.interval)
        st.duration ct' (TGRec.mk none none none) true false n' := by
  rw [serializeTextGridLong, List.foldl_append, header_fold]
  obtain ⟨ct', n', h⟩ := tierBlocks_fold st.duration st.annotations
    (allTiers st) [] [] none 0
  exact ⟨ct', n', by rw [h]; simp⟩

/-- Keys of the re-created annotations of one tier. -/
theorem emitted_keys (tn : String) :
    ∀ (recs : List Annot) (n : ℕ),
      (emitted n tn recs).map annKey =
        recs.map fun a => (tn, a.start, a.endT, a.text, AnnType.interval) := by
  intro recs
  induction recs with
  | nil => intro n; rfl
  | cons a rest ih => intro n; simp [emitted, annKey, ih]

/-- Keys of the re-created annotations of the whole tier list. -/
theorem emittedAll_keys (anns : List Annot) :
    ∀ (B : List String) (n : ℕ),
      (emittedAll n anns B).map annKey =
        B.flatMap fun tn => (tierRecs anns tn).map
          fun a => (tn, a.start, a.endT, a.text, AnnType.interval) := by
  intro B
  induction B with
  | nil => intro n; rfl
  | cons tn rest ih =>
    intro n
    simp [emittedAll, emitted_keys, ih]

/-- Stable insertion is a permutation of consing. -/
theorem insertByStart_perm (a : Annot) :
    ∀ l : List Annot, (insertByStart a l).Perm (a :: l) := by
  intro l
  induction l with
  | nil => exact List.Perm.refl _
  | cons b rest ih =>
    rw [insertByStart]
    by_cases h : annStartLe b a
    · rw [if_pos h]
      exact (ih.cons b).trans (List.Perm.swap a b rest)
    · rw [if_neg h]

/-- The insertion-sort fold is a permutation of appending. -/
theorem sortByStart_perm_aux :
    ∀ (l acc : List Annot),
      (l.foldl (fun acc a => insertByStart a acc) acc).Perm (acc ++ l) := by
  intro l
  induction l with
  | nil => intro acc; simp
  | cons a rest ih =>
    intro acc
    rw [List.foldl_cons]
    refine (ih (insertByStart a acc)).trans ?_
    refine (List.Perm.append (insertByStart_perm a acc)
      (List.Perm.refl rest)).trans ?_
    exact List.perm_middle.symm

/-- The sorted tier records are a permutation of the tier's filtered
annotations. -/
theorem tierRecs_perm (anns : List Annot) (tn : String) :
    (tierRecs anns tn).Perm
      (anns.filter fun a => decide (a.tier = tn)) := by
  rw [tierRecs, sortByStart]
  simpa using
    sortByStart_perm_aux (anns.filter fun a => decide (a.tier = tn)) []

/-- Congruence for `flatMap` over list members. -/
theorem flatMap_congr_mem {α β : Type} (l : List α) (f g : α → List β)
    (h : ∀ x ∈ l, f x = g x) : l.flatMap f = l.flatMap g := by
  induction l with
  | nil => rfl
  | cons x rest ih =>
    rw [List.flatMap_cons, List.flatMap_cons, h x (List.mem_cons_self _ _),
      ih fun y hy => h y (List.mem_cons_of_mem x hy)]

/-- Permutation congruence for `flatMap` over list members. -/
theorem flatMap_perm_congr {α β : Type} (l : List α) (f g : α → List β)
    (h : ∀ x ∈ l, (f x).Perm (g x)) : (l.flatMap f).Perm (l.flatMap g) := by
  induction l with
  | nil => exact List.Perm.refl _
  | cons x rest ih =>
    rw [List.flatMap_cons, List.flatMap_cons]
    exact List.Perm.append (h x (List.mem_cons_self _ _))
      (ih fun y hy => h y (List.mem_cons_of_mem x hy))

/-- Concatenating the per-tier filters over a duplicate-free tier list
covering all annotation tiers is a permutation of the annotation list. -/
theorem flatMap_filter_perm :
    ∀ (B : List String) (anns : List Annot), B.Nodup →
      (∀ a ∈ anns, a.tier ∈ B) →
      (B.flatMap fun tn => anns.filter fun a => decide (a.tier = tn)).Perm
        anns := by
  intro B
  induction B with
  | nil =>
    intro anns _ hcov
    have hnil : anns = [] := List.eq_nil_iff_forall_not_mem.mpr
      fun a ha => absurd (hcov a ha) (List.not_mem_nil _)
    rw [hnil]
    simp
  | cons tn rest ih =>
    intro anns hnd hcov
    rw [List.flatMap_cons]
    have hne : ∀ tn' ∈ rest, tn' ≠ tn := fun tn' h' heq =>
      (List.nodup_cons.mp hnd).1 (heq ▸ h')
    have hcong : (rest.flatMap fun tn' =>
        anns.filter fun a => decide (a.tier = tn')) =
        rest.flatMap fun tn' =>
          (anns.filter fun a => !decide (a.tier = tn)).filter
            fun a => decide (a.tier = tn') := by
      apply flatMap_congr_mem
      intro tn' h'
      rw [List.filter_filter]
      apply List.filter_congr
      intro a _
      by_cases ha : a.tier = tn'
      · simp [ha, hne tn' h']
      · simp [ha]
    rw [hcong]
    have hcov' : ∀ a ∈ anns.filter fun a => !decide (a.tier = tn),
        a.tier ∈ rest := by
      intro a ha
      obtain ⟨hmem, hfl⟩ := List.mem_filter.mp ha
      rcases List.mem_cons.mp (hcov a hmem) with heq | h'
      · exfalso
        simp [heq] at hfl
      · exact h'
    have hperm := ih (anns.filter fun a => !decide (a.tier = tn))
      (List.nodup_cons.mp hnd).2 hcov'
    exact (List.Perm.append_left _ hperm).trans
      (List.filter_append_perm _ anns)

/-- The JavaScript-`Set` de-duplication has no duplicates. -/
theorem jsSetDedupAux_nodup {α : Type} [DecidableEq α] :
    ∀ (l seen : List α), (jsSetDedupAux seen l).Nodup := by
  intro l
  induction l with
  | nil => intro seen; simp [jsSetDedupAux]
  | cons x xs ih =>
    intro seen
    by_cases hx : x ∈ seen
    · rw [jsSetDedupAux, if_pos hx]
      exact ih seen
    · rw [jsSetDedupAux, if_neg hx]
      refine List.nodup_cons.mpr ⟨?_, ih (x :: seen)⟩
      intro hmem
      exact ((mem_jsSetDedupAux xs (x :: seen) x).mp hmem).2
        (List.mem_cons_self _ _)

/-- The exported tier list has no duplicates. -/
theorem allTiers_nodup (st : HomeState) : (allTiers st).Nodup :=
  jsSetDedupAux_nodup _ []

/-- Every annotation's tier appears in the exported tier list. -/
theorem tier_mem_allTiers (st : HomeState) :
    ∀ a ∈ st.annotations, a.tier ∈ allTiers st := by
  intro a ha
  rw [allTiers, mem_jsSetDedup]
  exact List.mem_append_right _ (List.mem_map_of_mem Annot.tier ha)

/-- Claim C1 (amended): for a state whose annotations are all interval
typed, the serialized output contains an `xmin =` line (so `parseTextGrid`
dispatches to the long-form parser), and parsing it yields an annotation
set equal by `(tier, start, end, text, type)` to the original.  The mixed
interval/point half of the original claim is refuted by
`C1_mixed_counterexample`: the exporter writes every tier as an
`IntervalTier`, so point annotations come back interval-typed. -/
theorem C1_roundtrip_interval (st : HomeState)
    (hall : ∀ a ∈ st.annotations, a.type = AnnType.interval) :
    hasXminKey (serializeTextGridLong st) = true ∧
    ((parseTextGridLong (serializeTextGridLong st)).annotations.map
      annKey).Perm (st.annotations.map annKey) := by
  constructor
  · rw [serializeTextGridLong, hasXminKey]
    simp [isXminLine]
  · obtain ⟨ct', n', hfold⟩ := parse_serialize st
    have hann : (parseTextGridLong (serializeTextGridLong st)).annotations =
        emittedAll 0 st.annotations (allTiers st) := by
      simp only [parseTextGridLong]
      rw [hfold]
    rw [hann, emittedAll_keys]
    have hcong : ((allTiers st).flatMap fun tn =>
        (tierRecs st.annotations tn).map
          fun a => (tn, a.start, a.endT, a.text, AnnType.interval)) =
        (allTiers st).flatMap fun tn =>
          (tierRecs st.annotations tn).map annKey := by
      apply flatMap_congr_mem
      intro tn _
      apply List.map_congr_left
      intro a ha
      have hmem : a ∈ st.annotations.filter fun a => decide (a.tier = tn) :=
        (tierRecs_perm st.annotations tn).mem_iff.mp ha
      obtain ⟨hmem', htier⟩ := List.mem_filter.mp hmem
      simp only [decide_eq_true_eq] at htier
      simp only [annKey]
      rw [htier, hall a hmem']
    rw [hcong, ← List.map_flatMap]
    apply List.Perm.map
    refine (flatMap_perm_congr _ _ _
      fun tn _ => tierRecs_perm st.annotations tn).trans ?_
    exact flatMap_filter_perm (allTiers st) st.annotations
      (allTiers_nodup st) (tier_mem_allTiers st)

/-- Closed instance of `C1_roundtrip_interval` on `intervalDemo`. -/
theorem C1_roundtrip_interval_witness :
    (∀ a ∈ intervalDemo.annotations, a.type = AnnType.interval) ∧
    ((parseTextGridLong (serializeTextGridLong intervalDemo)).annotations.map
      annKey).Perm (intervalDemo.annotations.map annKey) :=
  ⟨by decide, (C1_roundtrip_interval intervalDemo (by decide)).2⟩

/-- Claim C1 (counterexample): on a state with one interval annotation and
one point annotation, parsing the serialized output does not reproduce the
annotation set by `(tier, start, end, text, type)` — the point annotation
is exported as an `IntervalTier` record and parsed back interval-typed. -/
theorem C1_mixed_counterexample :
    ¬ ((parseTextGridLong (serializeTextGridLong mixedDemo)).annotations.map
      annKey).Perm (mixedDemo.annotations.map annKey) := by decide
